import Mathlib

/-!
Verification of the AF_XDP forwarder (src/xdp/xdp_fwd2.c and
src/xdp/xdp_fwd2_refactored.c) against its natural-language specification.

The development shallowly embeds the C code: the UMEM freelist is an array
(List Nat) plus a top index, exactly as the C struct umem_mgr holds
free_addrs and free_top; ring interaction is modeled with explicit free-slot
counts and submitted-descriptor lists; the retry loops of the pump carry a
fuel parameter (the C spins until the kernel makes progress; fuel exhaustion
is modeled as None); syscalls issued by the pump are recorded in an event
trace.  Machine integers are modeled as Nat: none of the verified operations
can overflow 32/64-bit counters in the reachable range, and the claims under
study are index/count disciplines, not overflow behavior.
-/

namespace XdpFwd

/-- Model of struct umem_mgr's freelist part: free_addrs is the backing array
(length n_frames in every reachable state), free_top the next-push index. -/
structure Umem where
  freeAddrs : List Nat
  freeTop : Nat
  nFrames : Nat
  frameSize : Nat
  deriving Repr, DecidableEq

/-- Loop body of umem_alloc in both files: repeatedly do
out[i] = free_addrs[--free_top].  Returns the updated manager and the popped
addresses in pop order. -/
def allocLoop : Umem → Nat → Umem × List Nat
  | u, 0 => (u, [])
  | u, Nat.succ k =>
    let top' := u.freeTop - 1
    let x := u.freeAddrs.getD top' 0
    let r := allocLoop { u with freeTop := top' } k
    (r.1, x :: r.2)

/-- Embedding of umem_alloc (src/xdp/xdp_fwd2.c lines 139-150): pop
min(want, free_top) addresses from the top of the freelist stack. -/
def umem_alloc (u : Umem) (want : Nat) : Umem × List Nat :=
  let got := if u.freeTop ≥ want then want else u.freeTop
  allocLoop u got

/-- Embedding of the refactored umem_alloc
(src/xdp/xdp_fwd2_refactored.c lines 142-154): early return on want = 0,
then clamp want to the available count and run the same pop loop. -/
def umem_alloc_r (u : Umem) (want : Nat) : Umem × List Nat :=
  if want = 0 then (u, [])
  else
    let want' := if want > u.freeTop then u.freeTop else want
    allocLoop u want'

/-- Embedding of umem_free_one (src/xdp/xdp_fwd2.c lines 152-159):
free_addrs[free_top++] = addr, with no capacity check. -/
def umem_free_one (u : Umem) (addr : Nat) : Umem :=
  { u with freeAddrs := u.freeAddrs.set u.freeTop addr
           freeTop := u.freeTop + 1 }

/-- Loop body of the refactored umem_free: push each address, skipping the
push when free_top has reached n_frames. -/
def freeLoop : Umem → List Nat → Umem
  | u, [] => u
  | u, a :: rest =>
    if u.freeTop < u.nFrames then
      freeLoop { u with freeAddrs := u.freeAddrs.set u.freeTop a
                        freeTop := u.freeTop + 1 } rest
    else freeLoop u rest

/-- Embedding of the refactored umem_free
(src/xdp/xdp_fwd2_refactored.c lines 156-167): push every entry under the
mutex, silently dropping pushes beyond n_frames. -/
def umem_free (u : Umem) (addrs : List Nat) : Umem :=
  freeLoop u addrs

/-- Embedding of the refactored umem_free_one
(src/xdp/xdp_fwd2_refactored.c lines 169-173): one-element wrapper. -/
def umem_free_one_r (u : Umem) (addr : Nat) : Umem :=
  umem_free u [addr]

/- Basic lemmas about the alloc loop. -/

theorem allocLoop_freeAddrs (u : Umem) (k : Nat) :
    (allocLoop u k).1.freeAddrs = u.freeAddrs := by
  induction k generalizing u with
  | zero => rfl
  | succ k ih => simpa [allocLoop] using ih { u with freeTop := u.freeTop - 1 }

theorem allocLoop_nFrames (u : Umem) (k : Nat) :
    (allocLoop u k).1.nFrames = u.nFrames := by
  induction k generalizing u with
  | zero => rfl
  | succ k ih => simpa [allocLoop] using ih { u with freeTop := u.freeTop - 1 }

theorem allocLoop_frameSize (u : Umem) (k : Nat) :
    (allocLoop u k).1.frameSize = u.frameSize := by
  induction k generalizing u with
  | zero => rfl
  | succ k ih => simpa [allocLoop] using ih { u with freeTop := u.freeTop - 1 }

theorem allocLoop_freeTop (u : Umem) (k : Nat) :
    (allocLoop u k).1.freeTop = u.freeTop - k := by
  induction k generalizing u with
  | zero => rfl
  | succ k ih =>
    have h := ih { u with freeTop := u.freeTop - 1 }
    simp only [allocLoop]
    simpa [Nat.sub_sub, Nat.add_comm] using h

theorem allocLoop_out (u : Umem) (k : Nat) :
    (allocLoop u k).2 =
      (List.range k).map (fun i => u.freeAddrs.getD (u.freeTop - 1 - i) 0) := by
  induction k generalizing u with
  | zero => rfl
  | succ k ih =>
    have h := ih { u with freeTop := u.freeTop - 1 }
    simp only [allocLoop, List.range_succ_eq_map, List.map_cons, List.map_map]
    refine congrArg₂ _ rfl ?_
    rw [h]
    refine congrArg₂ _ ?_ rfl
    funext i
    show u.freeAddrs.getD (u.freeTop - 1 - 1 - i) 0
        = u.freeAddrs.getD (u.freeTop - 1 - (i + 1)) 0
    have e : u.freeTop - 1 - 1 - i = u.freeTop - 1 - (i + 1) := by omega
    rw [e]

theorem allocLoop_len (u : Umem) (k : Nat) :
    (allocLoop u k).2.length = k := by
  simp [allocLoop_out]

/-- Helper: writing at an index at or beyond the kept length leaves a take
unchanged. -/
theorem take_set_stable {α : Type} (l : List α) (k n : Nat) (a : α)
    (h : n ≤ k) : (l.set k a).take n = l.take n := by
  induction l generalizing k n with
  | nil => simp
  | cons x xs ih =>
    cases k with
    | zero =>
      have hn : n = 0 := Nat.le_zero.mp h
      simp [hn]
    | succ k =>
      cases n with
      | zero => simp
      | succ n =>
        show List.take (n + 1) (x :: xs.set k a) = List.take (n + 1) (x :: xs)
        simp [ih k n (Nat.succ_le_succ_iff.mp h)]

/- Lemmas about the refactored free loop. -/

theorem freeLoop_nFrames (u : Umem) (l : List Nat) :
    (freeLoop u l).nFrames = u.nFrames := by
  induction l generalizing u with
  | nil => rfl
  | cons a rest ih =>
    by_cases h : u.freeTop < u.nFrames <;> simp [freeLoop, h, ih]

theorem freeLoop_top_le (u : Umem) (l : List Nat)
    (h : u.freeTop ≤ u.nFrames) : (freeLoop u l).freeTop ≤ u.nFrames := by
  induction l generalizing u with
  | nil => exact h
  | cons a rest ih =>
    by_cases hc : u.freeTop < u.nFrames
    · simp only [freeLoop, hc, if_true]
      exact ih { u with freeAddrs := u.freeAddrs.set u.freeTop a
                        freeTop := u.freeTop + 1 } hc
    · simp only [freeLoop, hc, if_false]
      exact ih u h

/-- C7-supporting fact: umem_alloc and the refactored umem_alloc compute the
same function. -/
theorem umem_alloc_r_eq (u : Umem) (want : Nat) :
    umem_alloc_r u want = umem_alloc u want := by
  unfold umem_alloc_r umem_alloc
  by_cases h0 : want = 0
  · simp [h0, allocLoop]
  · simp only [h0, if_false]
    have e : (if want > u.freeTop then u.freeTop else want)
        = (if u.freeTop ≥ want then want else u.freeTop) := by
      split <;> split <;> omega
    rw [e]

/-- Full characterization of the alloc operation, shared by several
results below. -/
theorem umem_alloc_props (u : Umem) (want : Nat) :
    (umem_alloc u want).2.length = min want u.freeTop ∧
    (umem_alloc u want).1.freeTop = u.freeTop - min want u.freeTop ∧
    (umem_alloc u want).1.freeAddrs = u.freeAddrs ∧
    (umem_alloc u want).1.nFrames = u.nFrames ∧
    (umem_alloc u want).2 =
      (List.range (min want u.freeTop)).map
        (fun i => u.freeAddrs.getD (u.freeTop - 1 - i) 0) ∧
    umem_alloc_r u want = umem_alloc u want := by
  have hg : (if u.freeTop ≥ want then want else u.freeTop)
      = min want u.freeTop := by split <;> omega
  refine ⟨?_, ?_, ?_, ?_, ?_, umem_alloc_r_eq u want⟩ <;>
    simp [umem_alloc, hg, allocLoop_len, allocLoop_freeTop,
          allocLoop_freeAddrs, allocLoop_nFrames, allocLoop_out]

/-- C7: umem_alloc returns exactly min(want, free_top) addresses, taken from
free_addrs[free_top - 1] downward, decreases free_top by exactly that count,
leaves the backing array and capacity unchanged, and is a total function
(it never blocks waiting for frames: a short return is a normal outcome);
the refactored umem_alloc behaves identically. -/
theorem umem_alloc_spec (u : Umem) (want : Nat) :
    (umem_alloc u want).2.length = min want u.freeTop ∧
    (umem_alloc u want).1.freeTop = u.freeTop - min want u.freeTop ∧
    (umem_alloc u want).1.freeAddrs = u.freeAddrs ∧
    (umem_alloc u want).1.nFrames = u.nFrames ∧
    (umem_alloc u want).2 =
      (List.range (min want u.freeTop)).map
        (fun i => u.freeAddrs.getD (u.freeTop - 1 - i) 0) ∧
    umem_alloc_r u want = umem_alloc u want :=
  umem_alloc_props u want

/-- Single freelist operation, as issued by any caller: a bulk alloc or a
bulk free (the one-element variants are special cases). -/
inductive FLOp where
  | alloc (want : Nat)
  | free (addrs : List Nat)

/-- Application of one freelist operation using the refactored
implementations umem_alloc_r / umem_free. -/
def applyOp (u : Umem) : FLOp → Umem
  | .alloc w => (umem_alloc_r u w).1
  | .free as => umem_free u as

/-- Application of a whole call sequence against the refactored freelist. -/
def applyOps (u : Umem) (ops : List FLOp) : Umem := ops.foldl applyOp u

theorem applyOp_nFrames (u : Umem) (op : FLOp) :
    (applyOp u op).nFrames = u.nFrames := by
  cases op with
  | alloc w =>
    simp [applyOp, umem_alloc_r_eq, umem_alloc, allocLoop_nFrames]
  | free as => simp [applyOp, umem_free, freeLoop_nFrames]

theorem applyOp_top_le (u : Umem) (op : FLOp)
    (h : u.freeTop ≤ u.nFrames) : (applyOp u op).freeTop ≤ (applyOp u op).nFrames := by
  cases op with
  | alloc w =>
    simp only [applyOp, umem_alloc_r_eq, umem_alloc, allocLoop_freeTop,
      allocLoop_nFrames]
    omega
  | free as =>
    simpa [applyOp, umem_free, freeLoop_nFrames] using freeLoop_top_le u as h

/-- C2 (amended): with the refactored free operation, which silently drops
any push that would raise free_top beyond n_frames, invariant I2
(free_top ≤ n_frames) is preserved by every sequence of alloc and free
calls. -/
theorem freelist_I2_preserved (u : Umem) (ops : List FLOp)
    (h : u.freeTop ≤ u.nFrames) :
    (applyOps u ops).freeTop ≤ (applyOps u ops).nFrames := by
  induction ops generalizing u with
  | nil => exact h
  | cons op rest ih => exact ih (applyOp u op) (applyOp_top_le u op h)

/-- Witness for freelist_I2_preserved at a concrete state and call
sequence. -/
theorem freelist_I2_preserved_witness :
    (applyOps ⟨[0, 2048], 2, 2, 2048⟩
        [FLOp.free [0], FLOp.alloc 1, FLOp.free [0, 2048, 4096]]).freeTop ≤
    (applyOps ⟨[0, 2048], 2, 2, 2048⟩
        [FLOp.free [0], FLOp.alloc 1, FLOp.free [0, 2048, 4096]]).nFrames :=
  freelist_I2_preserved ⟨[0, 2048], 2, 2, 2048⟩
    [FLOp.free [0], FLOp.alloc 1, FLOp.free [0, 2048, 4096]] (by decide)

/-- C2 counterexample: the original umem_free_one (src/xdp/xdp_fwd2.c) pushes
with no capacity check, so freeing into a full freelist (free_top = n_frames
= 1) raises free_top to 2 > n_frames: the claim that the free operation
silently drops such pushes, and that free_top ≤ n_frames is preserved by
every call sequence, is false for that variant. -/
theorem umem_free_one_exceeds_capacity :
    (umem_free_one ⟨[0], 1, 1, 2048⟩ 0).freeTop = 2 ∧
    ¬ ((umem_free_one ⟨[0], 1, 1, 2048⟩ 0).freeTop ≤
       (umem_free_one ⟨[0], 1, 1, 2048⟩ 0).nFrames) := by
  decide

/-- C8: the freelist is LIFO: from any state with free_top < n_frames
(backing array of length n_frames), freeing an address a and then allocating
one address returns exactly [a] and restores the freelist to its original
state: free_top is restored and the live entries free_addrs[0..free_top) are
unchanged (the refactored one-element free agrees with the original). -/
theorem freelist_lifo_roundtrip (u : Umem) (a : Nat)
    (hlen : u.freeAddrs.length = u.nFrames) (h : u.freeTop < u.nFrames) :
    (umem_alloc (umem_free_one u a) 1).2 = [a] ∧
    (umem_alloc (umem_free_one u a) 1).1.freeTop = u.freeTop ∧
    (umem_alloc (umem_free_one u a) 1).1.freeAddrs.take u.freeTop
      = u.freeAddrs.take u.freeTop ∧
    (umem_alloc (umem_free_one u a) 1).1.nFrames = u.nFrames ∧
    umem_free_one_r u a = umem_free_one u a := by
  have htop : u.freeTop < u.freeAddrs.length := by omega
  have hget : (u.freeAddrs.set u.freeTop a)[u.freeTop]?.getD 0 = a := by
    rw [List.getElem?_set_self htop]
    rfl
  refine ⟨?_, ?_, ?_, ?_, ?_⟩
  · simp [umem_alloc, umem_free_one, allocLoop, hget]
  · simp [umem_alloc, umem_free_one, allocLoop_freeTop]
  · simp only [umem_alloc, umem_free_one, allocLoop_freeAddrs]
    exact take_set_stable u.freeAddrs u.freeTop u.freeTop a (le_refl _)
  · simp [umem_alloc, umem_free_one, allocLoop_nFrames]
  · simp [umem_free_one_r, umem_free, freeLoop, umem_free_one, h]

/-- Witness for freelist_lifo_roundtrip at a concrete freelist state. -/
theorem freelist_lifo_roundtrip_witness :
    (umem_alloc (umem_free_one ⟨[5, 0], 1, 2, 2048⟩ 7) 1).2 = [7] ∧
    (umem_alloc (umem_free_one ⟨[5, 0], 1, 2, 2048⟩ 7) 1).1.freeTop = 1 ∧
    (umem_alloc (umem_free_one ⟨[5, 0], 1, 2, 2048⟩ 7) 1).1.freeAddrs.take 1
      = [5, 0].take 1 ∧
    (umem_alloc (umem_free_one ⟨[5, 0], 1, 2, 2048⟩ 7) 1).1.nFrames = 2 ∧
    umem_free_one_r ⟨[5, 0], 1, 2, 2048⟩ 7 = umem_free_one ⟨[5, 0], 1, 2, 2048⟩ 7 :=
  freelist_lifo_roundtrip ⟨[5, 0], 1, 2, 2048⟩ 7 (by decide) (by decide)

/- ------------------------------------------------------------------
UMEM manager creation (umem_mgr_create, identical in both files apart from
the extra fq_initialized flag of the refactored struct).  Each fallible step
(setrlimit, calloc, mmap, xsk_umem__create, malloc of the freelist,
pthread_mutex_init) is driven by a success flag; the acquired and released
resources are recorded in order.
------------------------------------------------------------------ -/

/-- Resources acquired during umem_mgr_create, in acquisition order:
the calloc'd manager struct, the mmap'd backing memory, the kernel UMEM,
the freelist array, the mutex. -/
inductive Res where
  | mgrStruct
  | mapping
  | kernelUmem
  | flArray
  | mutexRes
  deriving Repr, DecidableEq

/-- Outcomes of the fallible steps of umem_mgr_create, supplied by the
environment. -/
structure CreateFlags where
  okSetrlimit : Bool
  okCalloc : Bool
  okMmap : Bool
  okUmemCreate : Bool
  okMallocFl : Bool
  okMutexInit : Bool
  deriving Repr, DecidableEq

/-- Result of umem_mgr_create: the manager (None on failure) plus the
resources acquired and the resources released, each in event order. -/
structure CreateResult where
  mgr : Option Umem
  acquired : List Res
  released : List Res
  deriving Repr, DecidableEq

/-- Freelist initialization loop of umem_mgr_create:
for i in [0, n): free_addrs[i] = i * frame_size. -/
def initFreelist (frameSize : Nat) : Nat → List Nat
  | 0 => []
  | n + 1 => initFreelist frameSize n ++ [n * frameSize]

/-- Embedding of umem_mgr_create (src/xdp/xdp_fwd2.c lines 63-125 and
src/xdp/xdp_fwd2_refactored.c lines 66-128): sequential acquisition with the
source's explicit cleanup calls on each failure path, and on success a
freelist holding all n_frames addresses with free_top = n_frames. -/
def umem_mgr_create (f : CreateFlags) (nFrames frameSize : Nat) : CreateResult :=
  if !f.okSetrlimit then ⟨none, [], []⟩
  else if !f.okCalloc then ⟨none, [], []⟩
  else if !f.okMmap then
    -- free(u)
    ⟨none, [.mgrStruct], [.mgrStruct]⟩
  else if !f.okUmemCreate then
    -- munmap(u->addr); free(u)
    ⟨none, [.mgrStruct, .mapping], [.mapping, .mgrStruct]⟩
  else if !f.okMallocFl then
    -- xsk_umem__delete(u->umem); munmap(u->addr); free(u)
    ⟨none, [.mgrStruct, .mapping, .kernelUmem],
      [.kernelUmem, .mapping, .mgrStruct]⟩
  else if !f.okMutexInit then
    -- free(u->free_addrs); xsk_umem__delete; munmap; free(u)
    ⟨none, [.mgrStruct, .mapping, .kernelUmem, .flArray],
      [.flArray, .kernelUmem, .mapping, .mgrStruct]⟩
  else
    ⟨some ⟨initFreelist frameSize nFrames, nFrames, nFrames, frameSize⟩,
      [.mgrStruct, .mapping, .kernelUmem, .flArray, .mutexRes], []⟩

theorem initFreelist_eq (frameSize n : Nat) :
    initFreelist frameSize n = (List.range n).map (fun i => i * frameSize) := by
  induction n with
  | zero => rfl
  | succ n ih => simp [initFreelist, ih, List.range_succ]

/-- C6: umem_mgr_create is atomic from the caller's view: whenever any step
fails it returns NULL and the released resources are exactly the acquired
ones in reverse order; on success nothing is released and the freelist holds
all n_frames frame addresses (i * frame_size for i < n_frames) with
free_top = n_frames. -/
theorem umem_mgr_create_atomic (f : CreateFlags) (nFrames frameSize : Nat) :
    match (umem_mgr_create f nFrames frameSize).mgr with
    | none =>
        (umem_mgr_create f nFrames frameSize).released
          = (umem_mgr_create f nFrames frameSize).acquired.reverse
    | some u =>
        (umem_mgr_create f nFrames frameSize).released = [] ∧
        u.freeTop = nFrames ∧ u.nFrames = nFrames ∧
        u.freeAddrs = (List.range nFrames).map (fun i => i * frameSize) := by
  obtain ⟨s1, s2, s3, s4, s5, s6⟩ := f
  cases s1 <;> cases s2 <;> cases s3 <;> cases s4 <;> cases s5 <;> cases s6 <;>
    simp [umem_mgr_create, initFreelist_eq]

/- ------------------------------------------------------------------
Round-robin slot advance of the worker loop (thread_func).
------------------------------------------------------------------ -/

/-- Embedding of the slot update of thread_func in src/xdp/xdp_fwd2.c line
383: i = (i + 1) & (n_ports_rx - 1). -/
def thread_step (n i : Nat) : Nat := (i + 1) &&& (n - 1)

/-- Slot serviced at iteration k of thread_func's loop, starting from slot
0. -/
def threadSlot (n : Nat) : Nat → Nat
  | 0 => 0
  | k + 1 => thread_step n (threadSlot n k)

/-- TX wiring built by main (src/xdp/xdp_fwd2.c lines 659-671): the TX port
for cohort slot j is the port at slot (j + 1) mod n. -/
def tx_slot (n j : Nat) : Nat := (j + 1) % n

/-- C1 (code bug): for a cohort of three ports the slot sequence of
thread_func is 0, 0, 0, ... because (i + 1) & (n - 1) equals (i + 1) mod n
only for power-of-two n: with n = 3 the update is (i + 1) & 2, so slot 0 is
serviced forever and slots 1 and 2 are never serviced, contradicting the
round-robin claim (and the loop's own comment) that every slot is serviced
within n consecutive iterations, while the TX wiring of main does use
(j + 1) mod n. -/
theorem thread_step_not_round_robin_for_three_ports :
    (List.range 9).map (threadSlot 3) = [0, 0, 0, 0, 0, 0, 0, 0, 0] ∧
    thread_step 3 0 = 0 ∧ (0 + 1) % 3 = 1 ∧
    (List.range 3).map (tx_slot 3) = [1, 2, 0] := by
  decide

/- ------------------------------------------------------------------
Command-line parsing (parse_args, src/xdp/xdp_fwd2.c lines 455-516) and the
startup prefix of main (lines 620-657).
------------------------------------------------------------------ -/

/-- Lexed command-line option as delivered by getopt_long with the option
string c:i:q: — bad covers any unrecognized option. -/
inductive Arg where
  | c (core : Nat)
  | i (iface : String)
  | q (qid : Nat)
  | bad
  deriving Repr, DecidableEq

/-- Parser state: the global counters n_threads and n_ports, the per-thread
core ids, and the per-port (iface, iface_queue) parameters in creation
order. -/
structure ParseState where
  nThreads : Nat
  nPorts : Nat
  coreIds : List Nat
  ports : List (String × Nat)
  deriving Repr, DecidableEq

def MAX_PORTS : Nat := 64
def MAX_THREADS : Nat := 64

/-- Option loop of parse_args: None models the return -1 paths (limit hit,
-q with no port yet, illegal argument). -/
def parseLoop : List Arg → ParseState → Option ParseState
  | [], st => some st
  | a :: rest, st =>
    match a with
    | .c core =>
      if st.nThreads = MAX_THREADS then none
      else parseLoop rest { st with coreIds := st.coreIds ++ [core]
                                    nThreads := st.nThreads + 1 }
    | .i ifc =>
      if st.nPorts = MAX_PORTS then none
      else parseLoop rest { st with ports := st.ports ++ [(ifc, 0)]
                                    nPorts := st.nPorts + 1 }
    | .q qid =>
      if st.nPorts = 0 then none
      else
        let old := st.ports.getD (st.nPorts - 1) ("", 0)
        parseLoop rest { st with ports := st.ports.set (st.nPorts - 1) (old.1, qid) }
    | .bad => none

/-- Embedding of parse_args: run the option loop from the zero-initialized
globals, then apply the post-loop validation (at least one port, at least
one thread, ports evenly divisible over threads). -/
def parse_args (args : List Arg) : Option ParseState :=
  match parseLoop args ⟨0, 0, [], []⟩ with
  | none => none
  | some st =>
    if st.nPorts = 0 then none
    else if st.nThreads = 0 then none
    else if st.nPorts % st.nThreads ≠ 0 then none
    else some st

/-- Startup actions of main after a successful parse, in program order. -/
inductive MainEv where
  | createUmem
  | createSocket
  deriving Repr, DecidableEq

/-- Outcome of the startup prefix of main (src/xdp/xdp_fwd2.c lines
631-657): on parse failure main prints usage and returns -1 before
umem_mgr_create and before any port_init; on success it creates the UMEM
manager and then one socket per port. -/
inductive MainOutcome where
  | earlyExit (code : Int)
  | started (st : ParseState) (events : List MainEv)
  deriving Repr, DecidableEq

/-- Embedding of the startup prefix of main. -/
def main_startup (args : List Arg) : MainOutcome :=
  match parse_args args with
  | none => .earlyExit (-1)
  | some st =>
    .started st (MainEv.createUmem ::
      (List.range st.nPorts).map (fun _ => MainEv.createSocket))

theorem parseLoop_no_iface_none (l1 : List Arg) (k : Nat) (l2 : List Arg)
    (h : ∀ s, Arg.i s ∉ l1) :
    ∀ st : ParseState, st.nPorts = 0 →
      parseLoop (l1 ++ Arg.q k :: l2) st = none := by
  induction l1 with
  | nil =>
    intro st hp
    simp [parseLoop, hp]
  | cons a rest ih =>
    intro st hp
    have hrest : ∀ s, Arg.i s ∉ rest := by
      intro s hs
      exact h s (List.mem_cons_of_mem a hs)
    cases a with
    | c core =>
      by_cases hm : st.nThreads = MAX_THREADS
      · simp [parseLoop, hm]
      · simp only [List.cons_append, parseLoop, hm, if_false]
        exact ih hrest _ hp
    | i ifc => exact absurd (List.mem_cons_self _ _) (h ifc)
    | q qid => simp [parseLoop, hp]
    | bad => simp [parseLoop]

/-- C10: if a -q option appears on the command line before any -i option,
parse_args rejects the configuration and main exits with -1 before creating
the UMEM manager or any socket. -/
theorem q_before_i_rejected (l1 l2 : List Arg) (k : Nat)
    (h : ∀ s, Arg.i s ∉ l1) :
    parse_args (l1 ++ Arg.q k :: l2) = none ∧
    main_startup (l1 ++ Arg.q k :: l2) = MainOutcome.earlyExit (-1) := by
  have hp := parseLoop_no_iface_none l1 k l2 h ⟨0, 0, [], []⟩ rfl
  constructor
  · simp [parse_args, hp]
  · simp [main_startup, parse_args, hp]

/-- Witness for q_before_i_rejected: the command line -c 0 -q 1. -/
theorem q_before_i_rejected_witness :
    parse_args [Arg.c 0, Arg.q 1] = none ∧
    main_startup [Arg.c 0, Arg.q 1] = MainOutcome.earlyExit (-1) :=
  q_before_i_rejected [Arg.c 0] [] 1
    (by intro s hs; simp at hs)

/- ------------------------------------------------------------------
Forwarding pump.  The per-pump state gathers the shared UMEM manager, the
packet memory (bytes per data address), the rings the pump touches (RX and
Completion as pending-descriptor lists, Fill and TX as a free-slot count
plus the submitted descriptors) and the per-port packet counters.  The
needs-wakeup bits are kernel-owned and are snapshots for the duration of one
pump call.  Syscalls are recorded as events; the unbounded retry loops of
the C code carry a fuel parameter, with None modeling non-termination.
------------------------------------------------------------------ -/

/-- Syscalls the forwarding path can issue: a non-blocking POLLIN poll on
the RX socket, a non-blocking POLLOUT poll on the TX socket (refactored
variant), and a zero-length MSG_DONTWAIT sendto kick on the TX socket. -/
inductive Ev where
  | pollRx
  | pollTx
  | sendtoTx
  deriving Repr, DecidableEq

/-- State touched by one pump invocation on an (rx, tx) port pair. -/
structure PState where
  u : Umem
  umem : Nat → List Nat
  compSize : Nat
  fillSize : Nat
  cq : List Nat
  rxq : List (Nat × Nat)
  fqFree : Nat
  fqSubmitted : List Nat
  txFree : Nat
  txSubmitted : List (Nat × Nat)
  fqWakeup : Bool
  txWakeup : Bool
  nPktsRx : Nat
  nPktsTx : Nat

/-- Embedding of swap_mac_addresses (src/xdp/xdp_fwd2.c lines 249-258):
the Ethernet header holds ether_dhost in bytes 0-5 and ether_shost in bytes
6-11; the two 6-byte fields are exchanged, everything else kept. -/
def swap_mac_addresses (pkt : List Nat) : List Nat :=
  (pkt.drop 6).take 6 ++ pkt.take 6 ++ pkt.drop 12

/-- Embedding of xsk_umem__add_offset_to_addr: the data offset lives in the
upper 16 bits of the 64-bit ring address and is added to the lower 48
bits. -/
def add_offset_to_addr (addr : Nat) : Nat :=
  addr % 2 ^ 48 + addr / 2 ^ 48

/-- Completion-drain loop body of the original file: push each completed
address with the unchecked umem_free_one. -/
def drainOrig (u : Umem) (addrs : List Nat) : Umem :=
  addrs.foldl umem_free_one u

/-- Completion-drain loop body of the refactored file: push each completed
address with the capacity-checked umem_free_one wrapper. -/
def drainRefac (u : Umem) (addrs : List Nat) : Umem :=
  addrs.foldl umem_free_one_r u

/-- Step 1 of port_pump_once (src/xdp/xdp_fwd2.c lines 285-296): peek up to
comp_size (64 when zero) completions, free each address, release them. -/
def pump_drain_cq (s : PState) : PState :=
  let want := if s.compSize = 0 then 64 else s.compSize
  let n := min want s.cq.length
  { s with u := drainOrig s.u (s.cq.take n), cq := s.cq.drop n }

/-- Embedding of umem_mgr_process_cq
(src/xdp/xdp_fwd2_refactored.c lines 200-210): peek up to 64 completions,
free each address, release. -/
def umem_mgr_process_cq (s : PState) : PState :=
  let n := min 64 s.cq.length
  { s with u := drainRefac s.u (s.cq.take n), cq := s.cq.drop n }

/-- Embedding of xsk_ring_prod__reserve: all-or-nothing reservation of nb
slots given the current free-slot count. -/
def xsk_reserve (freeSlots nb : Nat) : Nat :=
  if nb ≤ freeSlots then nb else 0

/-- TX reservation retry loop of port_pump_once (src/xdp/xdp_fwd2.c lines
325-330): spin until one TX slot reserves, kicking with sendto whenever the
TX ring advertises needs-wakeup. -/
def txReserveLoop : Nat → PState → List Ev → Option PState × List Ev
  | 0, _, tr => (none, tr)
  | fuel + 1, s, tr =>
    if 1 ≤ s.txFree then (some s, tr)
    else txReserveLoop fuel s (tr ++ if s.txWakeup then [Ev.sendtoTx] else [])

/-- TX reservation retry loop of the refactored forward_one_packet (lines
321-327): same shape but the kick is a POLLOUT poll. -/
def txReserveLoopR : Nat → PState → List Ev → Option PState × List Ev
  | 0, _, tr => (none, tr)
  | fuel + 1, s, tr =>
    if 1 ≤ s.txFree then (some s, tr)
    else txReserveLoopR fuel s (tr ++ if s.txWakeup then [Ev.pollTx] else [])

/-- Freelist-replenish retry loop of port_pump_once (lines 342-356): until
one frame allocates, poll RX when the Fill ring advertises needs-wakeup and
re-drain up to 64 completions. -/
def refillAllocLoop : Nat → PState → List Ev → Option (Nat × PState) × List Ev
  | 0, _, tr => (none, tr)
  | fuel + 1, s, tr =>
    let r := umem_alloc s.u 1
    if r.2.length = 1 then (some (r.2.getD 0 0, { s with u := r.1 }), tr)
    else
      let tr2 := tr ++ if s.fqWakeup then [Ev.pollRx] else []
      let n := min 64 s.cq.length
      refillAllocLoop fuel
        { s with u := drainOrig s.u (s.cq.take n), cq := s.cq.drop n } tr2

/-- Fill-ring reservation retry loop of port_pump_once (lines 358-364):
spin until one Fill slot reserves, polling RX under needs-wakeup. -/
def fqReserveLoop : Nat → PState → List Ev → Option PState × List Ev
  | 0, _, tr => (none, tr)
  | fuel + 1, s, tr =>
    if 1 ≤ s.fqFree then (some s, tr)
    else fqReserveLoop fuel s (tr ++ if s.fqWakeup then [Ev.pollRx] else [])

/-- Embedding of port_pump_once (src/xdp/xdp_fwd2.c lines 282-370): drain
completions, peek one RX descriptor (empty → optional poll, return 0),
release RX, swap MACs in place at the frame's data address, transmit the
same (addr, len) descriptor, then replenish the Fill ring with one fresh
frame from the freelist. -/
def port_pump_once (fuel : Nat) (s0 : PState) : Option (Nat × PState) × List Ev :=
  let s := pump_drain_cq s0
  match s.rxq with
  | [] => (some (0, s), if s.fqWakeup then [Ev.pollRx] else [])
  | (addr, len) :: rest =>
    let s1 := { s with rxq := rest, nPktsRx := s.nPktsRx + 1 }
    let da := add_offset_to_addr addr
    let s2 := { s1 with
      umem := fun a => if a = da then swap_mac_addresses (s1.umem da) else s1.umem a }
    match txReserveLoop fuel s2 [] with
    | (none, tr) => (none, tr)
    | (some s3, tr) =>
      let s4 := { s3 with txSubmitted := s3.txSubmitted ++ [(addr, len)]
                          txFree := s3.txFree - 1 }
      let tr2 := tr ++ if s4.txWakeup then [Ev.sendtoTx] else []
      let s5 := { s4 with nPktsTx := s4.nPktsTx + 1 }
      match refillAllocLoop fuel s5 tr2 with
      | (none, tr3) => (none, tr3)
      | (some (fresh, s6), tr3) =>
        match fqReserveLoop fuel s6 tr3 with
        | (none, tr4) => (none, tr4)
        | (some s7, tr4) =>
          (some (1, { s7 with fqSubmitted := s7.fqSubmitted ++ [fresh]
                              fqFree := s7.fqFree - 1 }), tr4)

/-- Embedding of umem_mgr_fill_fq
(src/xdp/xdp_fwd2_refactored.c lines 176-197): pop up to want frames, try to
reserve exactly that many Fill slots; on shortfall push all frames back and
return 0, otherwise submit them and return the count. -/
def umem_mgr_fill_fq (s : PState) (want : Nat) : PState × Nat :=
  if want = 0 then (s, 0)
  else
    let r := umem_alloc_r s.u want
    let got := r.2.length
    if got = 0 then ({ s with u := r.1 }, 0)
    else
      let reserved := xsk_reserve s.fqFree got
      if reserved ≠ got then ({ s with u := umem_free r.1 r.2 }, 0)
      else ({ s with u := r.1
                     fqFree := s.fqFree - got
                     fqSubmitted := s.fqSubmitted ++ r.2 }, got)

/-- Embedding of forward_one_packet
(src/xdp/xdp_fwd2_refactored.c lines 296-353): process completions, peek one
RX descriptor (empty → optional poll, return 0), reserve a TX slot with
POLLOUT kicks, forward the same (addr, len) descriptor without touching the
packet bytes, kick if needed, then top up the Fill ring when more than half
of it is free. -/
def forward_one_packet (fuel : Nat) (s0 : PState) : Option (Nat × PState) × List Ev :=
  let s := umem_mgr_process_cq s0
  match s.rxq with
  | [] => (some (0, s), if s.fqWakeup then [Ev.pollRx] else [])
  | (addr, len) :: rest =>
    match txReserveLoopR fuel s [] with
    | (none, tr) => (none, tr)
    | (some s1, tr) =>
      let s2 := { s1 with txSubmitted := s1.txSubmitted ++ [(addr, len)]
                          txFree := s1.txFree - 1
                          rxq := rest }
      let tr2 := tr ++ if s2.txWakeup then [Ev.pollTx] else []
      let s3 := if s2.fillSize / 2 < s2.fqFree then (umem_mgr_fill_fq s2 s2.fqFree).1 else s2
      (some (1, { s3 with nPktsRx := s3.nPktsRx + 1
                          nPktsTx := s3.nPktsTx + 1 }), tr2)

/-- Embedding of the initial Fill-ring fill of port_init
(src/xdp/xdp_fwd2.c lines 220-244): pop min(fill_size, 4096) frames; if the
reservation comes back short, port_init fails (returns NULL) WITHOUT pushing
the popped frames back onto the freelist.  The Bool is whether port_init
continues. -/
def port_init_fill (s : PState) : Bool × PState :=
  if s.fillSize = 0 then (true, s)
  else
    let need := if s.fillSize > 4096 then 4096 else s.fillSize
    let r := umem_alloc s.u need
    let got := r.2.length
    if got = 0 then (false, { s with u := r.1 })
    else
      let reserved := xsk_reserve s.fqFree got
      if reserved ≠ got then (false, { s with u := r.1 })
      else (true, { s with u := r.1
                           fqFree := s.fqFree - got
                           fqSubmitted := s.fqSubmitted ++ r.2 })

/- Lemmas about the completion drains: they only add frames to the
freelist (free_top grows, the live entries below the old top are kept). -/

theorem drainOrig_freeTop (u : Umem) (l : List Nat) :
    (drainOrig u l).freeTop = u.freeTop + l.length := by
  induction l generalizing u with
  | nil => rfl
  | cons a rest ih =>
    have h := ih (umem_free_one u a)
    simp only [drainOrig, List.foldl_cons] at h ⊢
    rw [h]
    simp [umem_free_one]
    omega

theorem drainOrig_take (u : Umem) (l : List Nat) :
    (drainOrig u l).freeAddrs.take u.freeTop = u.freeAddrs.take u.freeTop := by
  induction l generalizing u with
  | nil => rfl
  | cons a rest ih =>
    have h := ih (umem_free_one u a)
    simp only [drainOrig, List.foldl_cons] at h ⊢
    have e1 : (List.foldl umem_free_one (umem_free_one u a) rest).freeAddrs.take u.freeTop
        = ((List.foldl umem_free_one (umem_free_one u a) rest).freeAddrs.take
            (u.freeTop + 1)).take u.freeTop := by
      rw [List.take_take]
      simp [Nat.min_eq_left (Nat.le_succ u.freeTop)]
    rw [e1]
    have e2 : (umem_free_one u a).freeAddrs.take (u.freeTop + 1)
        = (List.foldl umem_free_one (umem_free_one u a) rest).freeAddrs.take
            (u.freeTop + 1) := by
      exact (h).symm
    rw [← e2]
    simp only [umem_free_one]
    rw [List.take_take]
    simp only [Nat.min_eq_left (Nat.le_succ u.freeTop)]
    exact take_set_stable u.freeAddrs u.freeTop u.freeTop a (le_refl _)

theorem drainRefac_freeTop_ge (u : Umem) (l : List Nat) :
    u.freeTop ≤ (drainRefac u l).freeTop := by
  induction l generalizing u with
  | nil => exact le_refl _
  | cons a rest ih =>
    simp only [drainRefac, List.foldl_cons] at ih ⊢
    refine le_trans ?_ (ih (umem_free_one_r u a))
    simp only [umem_free_one_r, umem_free, freeLoop]
    split <;> simp

theorem drainRefac_take (u : Umem) (l : List Nat) :
    (drainRefac u l).freeAddrs.take u.freeTop = u.freeAddrs.take u.freeTop := by
  induction l generalizing u with
  | nil => rfl
  | cons a rest ih =>
    simp only [drainRefac, List.foldl_cons] at ih ⊢
    have h := ih (umem_free_one_r u a)
    by_cases hc : u.freeTop < u.nFrames
    · have e0 : umem_free_one_r u a
          = { u with freeAddrs := u.freeAddrs.set u.freeTop a
                     freeTop := u.freeTop + 1 } := by
        simp [umem_free_one_r, umem_free, freeLoop, hc]
      rw [e0] at h
      have e1 : (List.foldl umem_free_one_r
            ({ u with freeAddrs := u.freeAddrs.set u.freeTop a
                      freeTop := u.freeTop + 1 } : Umem) rest).freeAddrs.take u.freeTop
          = ((List.foldl umem_free_one_r
            ({ u with freeAddrs := u.freeAddrs.set u.freeTop a
                      freeTop := u.freeTop + 1 } : Umem) rest).freeAddrs.take
              (u.freeTop + 1)).take u.freeTop := by
        rw [List.take_take]
        simp [Nat.min_eq_left (Nat.le_succ u.freeTop)]
      rw [e0, e1, h]
      rw [List.take_take]
      simp only [Nat.min_eq_left (Nat.le_succ u.freeTop)]
      exact take_set_stable u.freeAddrs u.freeTop u.freeTop a (le_refl _)
    · have e0 : umem_free_one_r u a = u := by
        simp [umem_free_one_r, umem_free, freeLoop, hc]
      rw [e0] at h ⊢
      exact h

/- Lemmas about the retry loops. -/

theorem txReserveLoop_succ (fuel : Nat) (s : PState) (tr : List Ev)
    (h : 1 ≤ s.txFree) : txReserveLoop (fuel + 1) s tr = (some s, tr) := by
  simp [txReserveLoop, h]

theorem txReserveLoop_state (fuel : Nat) (s : PState) (tr : List Ev) :
    (txReserveLoop fuel s tr).1 = none ∨ (txReserveLoop fuel s tr).1 = some s := by
  induction fuel generalizing tr with
  | zero => exact Or.inl rfl
  | succ fuel ih =>
    by_cases h : 1 ≤ s.txFree
    · right
      simp [txReserveLoop, h]
    · simpa [txReserveLoop, h] using ih _

theorem txReserveLoop_mem (fuel : Nat) (s : PState) (tr : List Ev) (e : Ev)
    (hm : e ∈ (txReserveLoop fuel s tr).2) :
    e ∈ tr ∨ (e = Ev.sendtoTx ∧ s.txWakeup = true) := by
  induction fuel generalizing tr with
  | zero => exact Or.inl hm
  | succ fuel ih =>
    by_cases h : 1 ≤ s.txFree
    · rw [txReserveLoop_succ fuel s tr h] at hm
      exact Or.inl hm
    · simp only [txReserveLoop, h, if_false] at hm
      rcases ih _ hm with hin | hdone
      · rcases List.mem_append.mp hin with h1 | h2
        · exact Or.inl h1
        · by_cases hw : s.txWakeup
          · simp only [hw, if_true, List.mem_singleton] at h2
            exact Or.inr ⟨h2, hw⟩
          · simp [hw] at h2
      · exact Or.inr hdone

theorem txReserveLoopR_succ (fuel : Nat) (s : PState) (tr : List Ev)
    (h : 1 ≤ s.txFree) : txReserveLoopR (fuel + 1) s tr = (some s, tr) := by
  simp [txReserveLoopR, h]

theorem txReserveLoopR_state (fuel : Nat) (s : PState) (tr : List Ev) :
    (txReserveLoopR fuel s tr).1 = none ∨ (txReserveLoopR fuel s tr).1 = some s := by
  induction fuel generalizing tr with
  | zero => exact Or.inl rfl
  | succ fuel ih =>
    by_cases h : 1 ≤ s.txFree
    · right
      simp [txReserveLoopR, h]
    · simpa [txReserveLoopR, h] using ih _

theorem txReserveLoopR_mem (fuel : Nat) (s : PState) (tr : List Ev) (e : Ev)
    (hm : e ∈ (txReserveLoopR fuel s tr).2) :
    e ∈ tr ∨ (e = Ev.pollTx ∧ s.txWakeup = true) := by
  induction fuel generalizing tr with
  | zero => exact Or.inl hm
  | succ fuel ih =>
    by_cases h : 1 ≤ s.txFree
    · rw [txReserveLoopR_succ fuel s tr h] at hm
      exact Or.inl hm
    · simp only [txReserveLoopR, h, if_false] at hm
      rcases ih _ hm with hin | hdone
      · rcases List.mem_append.mp hin with h1 | h2
        · exact Or.inl h1
        · by_cases hw : s.txWakeup
          · simp only [hw, if_true, List.mem_singleton] at h2
            exact Or.inr ⟨h2, hw⟩
          · simp [hw] at h2
      · exact Or.inr hdone

theorem fqReserveLoop_succ (fuel : Nat) (s : PState) (tr : List Ev)
    (h : 1 ≤ s.fqFree) : fqReserveLoop (fuel + 1) s tr = (some s, tr) := by
  simp [fqReserveLoop, h]

theorem fqReserveLoop_state (fuel : Nat) (s : PState) (tr : List Ev) :
    (fqReserveLoop fuel s tr).1 = none ∨ (fqReserveLoop fuel s tr).1 = some s := by
  induction fuel generalizing tr with
  | zero => exact Or.inl rfl
  | succ fuel ih =>
    by_cases h : 1 ≤ s.fqFree
    · right
      simp [fqReserveLoop, h]
    · simpa [fqReserveLoop, h] using ih _

theorem fqReserveLoop_mem (fuel : Nat) (s : PState) (tr : List Ev) (e : Ev)
    (hm : e ∈ (fqReserveLoop fuel s tr).2) :
    e ∈ tr ∨ (e = Ev.pollRx ∧ s.fqWakeup = true) := by
  induction fuel generalizing tr with
  | zero => exact Or.inl hm
  | succ fuel ih =>
    by_cases h : 1 ≤ s.fqFree
    · rw [fqReserveLoop_succ fuel s tr h] at hm
      exact Or.inl hm
    · simp only [fqReserveLoop, h, if_false] at hm
      rcases ih _ hm with hin | hdone
      · rcases List.mem_append.mp hin with h1 | h2
        · exact Or.inl h1
        · by_cases hw : s.fqWakeup
          · simp only [hw, if_true, List.mem_singleton] at h2
            exact Or.inr ⟨h2, hw⟩
          · simp [hw] at h2
      · exact Or.inr hdone

theorem refillAllocLoop_succ (fuel : Nat) (s : PState) (tr : List Ev)
    (h : 1 ≤ s.u.freeTop) :
    refillAllocLoop (fuel + 1) s tr
      = (some ((umem_alloc s.u 1).2.getD 0 0, { s with u := (umem_alloc s.u 1).1 }), tr) := by
  have hlen : (umem_alloc s.u 1).2.length = 1 := by
    rw [(umem_alloc_props s.u 1).1]
    omega
  simp [refillAllocLoop, hlen]

/-- Fields of the pump state that the replenish retry loop never modifies
on a successful exit. -/
theorem refillAllocLoop_preserve (fuel : Nat) (s : PState) (tr : List Ev) :
    match (refillAllocLoop fuel s tr).1 with
    | none => True
    | some (_, s') =>
        s'.txSubmitted = s.txSubmitted ∧ s'.fqSubmitted = s.fqSubmitted ∧
        s'.fqFree = s.fqFree ∧ s'.txFree = s.txFree ∧
        s'.umem = s.umem ∧ s'.nPktsRx = s.nPktsRx ∧ s'.nPktsTx = s.nPktsTx ∧
        s'.fqWakeup = s.fqWakeup ∧ s'.txWakeup = s.txWakeup ∧
        s'.rxq = s.rxq := by
  induction fuel generalizing s tr with
  | zero => trivial
  | succ fuel ih =>
    by_cases h : (umem_alloc s.u 1).2.length = 1
    · simp [refillAllocLoop, h]
    · simp only [refillAllocLoop, h, if_false]
      exact ih _ _

theorem refillAllocLoop_mem (fuel : Nat) (s : PState) (tr : List Ev) (e : Ev)
    (hm : e ∈ (refillAllocLoop fuel s tr).2) :
    e ∈ tr ∨ (e = Ev.pollRx ∧ s.fqWakeup = true) := by
  induction fuel generalizing s tr with
  | zero => exact Or.inl hm
  | succ fuel ih =>
    by_cases h : (umem_alloc s.u 1).2.length = 1
    · simp only [refillAllocLoop, h, if_true] at hm
      exact Or.inl hm
    · simp only [refillAllocLoop, h, if_false] at hm
      rcases ih _ _ hm with hin | hdone
      · rcases List.mem_append.mp hin with h1 | h2
        · exact Or.inl h1
        · by_cases hw : s.fqWakeup
          · simp only [hw, if_true, List.mem_singleton] at h2
            exact Or.inr ⟨h2, hw⟩
          · simp [hw] at h2
      · exact Or.inr hdone

/- Projection facts for the two completion-drain steps: they only touch the
freelist and the completion ring. -/

theorem pump_drain_cq_rxq (s : PState) : (pump_drain_cq s).rxq = s.rxq := rfl

theorem pump_drain_cq_fqWakeup (s : PState) :
    (pump_drain_cq s).fqWakeup = s.fqWakeup := rfl

theorem pump_drain_cq_u (s : PState) :
    (pump_drain_cq s).u
      = drainOrig s.u (s.cq.take (min (if s.compSize = 0 then 64 else s.compSize)
          s.cq.length)) := rfl

theorem process_cq_rxq (s : PState) : (umem_mgr_process_cq s).rxq = s.rxq := rfl

theorem process_cq_fqWakeup (s : PState) :
    (umem_mgr_process_cq s).fqWakeup = s.fqWakeup := rfl

theorem process_cq_u (s : PState) :
    (umem_mgr_process_cq s).u
      = drainRefac s.u (s.cq.take (min 64 s.cq.length)) := rfl

/-- Evaluation of port_pump_once when the RX ring has no descriptor: the
post-drain state is returned unchanged with result 0, and the trace is the
conditional RX poll. -/
theorem port_pump_once_empty (fuel : Nat) (s : PState) (h : s.rxq = []) :
    port_pump_once fuel s
      = ((some (0, pump_drain_cq s), if s.fqWakeup then [Ev.pollRx] else [])
          : Option (Nat × PState) × List Ev) := by
  simp only [port_pump_once, pump_drain_cq_rxq, h, pump_drain_cq_fqWakeup]

/-- Evaluation of forward_one_packet when the RX ring has no descriptor. -/
theorem forward_one_packet_empty (fuel : Nat) (s : PState) (h : s.rxq = []) :
    forward_one_packet fuel s
      = ((some (0, umem_mgr_process_cq s), if s.fqWakeup then [Ev.pollRx] else [])
          : Option (Nat × PState) × List Ev) := by
  simp only [forward_one_packet, process_cq_rxq, h, process_cq_fqWakeup]

/-- C5: when the RX peek returns no descriptor, both pump variants return 0
with no frame taken from the freelist (free_top only grows with the
completions drained and the live entries below the old top are untouched),
no packet counter changed, no ring-producer state changed (Fill and TX
free-slot counts and submitted descriptors are unchanged), and the only
syscall in the trace is a poll on the RX socket, present exactly when the
Fill ring's needs-wakeup flag is set. -/
theorem empty_rx_no_side_effects (fuel : Nat) (s : PState) (h : s.rxq = []) :
    ((port_pump_once fuel s).1 = some (0, pump_drain_cq s) ∧
     (port_pump_once fuel s).2 = (if s.fqWakeup then [Ev.pollRx] else []) ∧
     (pump_drain_cq s).nPktsRx = s.nPktsRx ∧
     (pump_drain_cq s).nPktsTx = s.nPktsTx ∧
     (pump_drain_cq s).fqSubmitted = s.fqSubmitted ∧
     (pump_drain_cq s).txSubmitted = s.txSubmitted ∧
     (pump_drain_cq s).fqFree = s.fqFree ∧
     (pump_drain_cq s).txFree = s.txFree ∧
     (pump_drain_cq s).rxq = s.rxq ∧
     s.u.freeTop ≤ (pump_drain_cq s).u.freeTop ∧
     (pump_drain_cq s).u.freeAddrs.take s.u.freeTop
       = s.u.freeAddrs.take s.u.freeTop) ∧
    ((forward_one_packet fuel s).1 = some (0, umem_mgr_process_cq s) ∧
     (forward_one_packet fuel s).2 = (if s.fqWakeup then [Ev.pollRx] else []) ∧
     (umem_mgr_process_cq s).nPktsRx = s.nPktsRx ∧
     (umem_mgr_process_cq s).nPktsTx = s.nPktsTx ∧
     (umem_mgr_process_cq s).fqSubmitted = s.fqSubmitted ∧
     (umem_mgr_process_cq s).txSubmitted = s.txSubmitted ∧
     (umem_mgr_process_cq s).fqFree = s.fqFree ∧
     (umem_mgr_process_cq s).txFree = s.txFree ∧
     (umem_mgr_process_cq s).rxq = s.rxq ∧
     s.u.freeTop ≤ (umem_mgr_process_cq s).u.freeTop ∧
     (umem_mgr_process_cq s).u.freeAddrs.take s.u.freeTop
       = s.u.freeAddrs.take s.u.freeTop) := by
  refine ⟨⟨?_, ?_, rfl, rfl, rfl, rfl, rfl, rfl, rfl, ?_, ?_⟩,
          ⟨?_, ?_, rfl, rfl, rfl, rfl, rfl, rfl, rfl, ?_, ?_⟩⟩
  · rw [port_pump_once_empty fuel s h]
  · rw [port_pump_once_empty fuel s h]
  · rw [pump_drain_cq_u, drainOrig_freeTop]
    omega
  · rw [pump_drain_cq_u, drainOrig_take]
  · rw [forward_one_packet_empty fuel s h]
  · rw [forward_one_packet_empty fuel s h]
  · rw [process_cq_u]
    exact drainRefac_freeTop_ge _ _
  · rw [process_cq_u, drainRefac_take]

/-- Concrete pump state with an empty RX ring, one pending completion and
the Fill ring's needs-wakeup flag set. -/
def wit5 : PState :=
  { u := ⟨[0, 2048], 1, 2, 2048⟩
    umem := fun _ => []
    compSize := 64
    fillSize := 2
    cq := [2048]
    rxq := []
    fqFree := 1
    fqSubmitted := []
    txFree := 1
    txSubmitted := []
    fqWakeup := true
    txWakeup := false
    nPktsRx := 0
    nPktsTx := 0 }

/-- Witness for empty_rx_no_side_effects at a concrete pump state with a
pending completion and the needs-wakeup flag set. -/
theorem empty_rx_no_side_effects_witness :
    ((port_pump_once 3 wit5).1 = some (0, pump_drain_cq wit5) ∧
     (port_pump_once 3 wit5).2 = (if wit5.fqWakeup then [Ev.pollRx] else []) ∧
     (pump_drain_cq wit5).nPktsRx = wit5.nPktsRx ∧
     (pump_drain_cq wit5).nPktsTx = wit5.nPktsTx ∧
     (pump_drain_cq wit5).fqSubmitted = wit5.fqSubmitted ∧
     (pump_drain_cq wit5).txSubmitted = wit5.txSubmitted ∧
     (pump_drain_cq wit5).fqFree = wit5.fqFree ∧
     (pump_drain_cq wit5).txFree = wit5.txFree ∧
     (pump_drain_cq wit5).rxq = wit5.rxq ∧
     wit5.u.freeTop ≤ (pump_drain_cq wit5).u.freeTop ∧
     (pump_drain_cq wit5).u.freeAddrs.take wit5.u.freeTop
       = wit5.u.freeAddrs.take wit5.u.freeTop) ∧
    ((forward_one_packet 3 wit5).1 = some (0, umem_mgr_process_cq wit5) ∧
     (forward_one_packet 3 wit5).2 = (if wit5.fqWakeup then [Ev.pollRx] else []) ∧
     (umem_mgr_process_cq wit5).nPktsRx = wit5.nPktsRx ∧
     (umem_mgr_process_cq wit5).nPktsTx = wit5.nPktsTx ∧
     (umem_mgr_process_cq wit5).fqSubmitted = wit5.fqSubmitted ∧
     (umem_mgr_process_cq wit5).txSubmitted = wit5.txSubmitted ∧
     (umem_mgr_process_cq wit5).fqFree = wit5.fqFree ∧
     (umem_mgr_process_cq wit5).txFree = wit5.txFree ∧
     (umem_mgr_process_cq wit5).rxq = wit5.rxq ∧
     wit5.u.freeTop ≤ (umem_mgr_process_cq wit5).u.freeTop ∧
     (umem_mgr_process_cq wit5).u.freeAddrs.take wit5.u.freeTop
       = wit5.u.freeAddrs.take wit5.u.freeTop) :=
  empty_rx_no_side_effects 3 wit5 rfl

/- Equation-style corollaries of the loop lemmas, convenient after a split
on the loop's result. -/

theorem txReserveLoop_eq_some (fuel : Nat) (s s' : PState) (tr tr' : List Ev)
    (h : txReserveLoop fuel s tr = (some s', tr')) : s' = s := by
  rcases txReserveLoop_state fuel s tr with h1 | h1 <;> rw [h] at h1
  · exact absurd h1 (by simp)
  · exact Option.some_inj.mp h1

theorem txReserveLoop_mem_eq (fuel : Nat) (s : PState) (tr tr' : List Ev)
    (o : Option PState) (h : txReserveLoop fuel s tr = (o, tr')) (e : Ev)
    (he : e ∈ tr') : e ∈ tr ∨ (e = Ev.sendtoTx ∧ s.txWakeup = true) :=
  txReserveLoop_mem fuel s tr e (by rw [h]; exact he)

theorem txReserveLoopR_eq_some (fuel : Nat) (s s' : PState) (tr tr' : List Ev)
    (h : txReserveLoopR fuel s tr = (some s', tr')) : s' = s := by
  rcases txReserveLoopR_state fuel s tr with h1 | h1 <;> rw [h] at h1
  · exact absurd h1 (by simp)
  · exact Option.some_inj.mp h1

theorem txReserveLoopR_mem_eq (fuel : Nat) (s : PState) (tr tr' : List Ev)
    (o : Option PState) (h : txReserveLoopR fuel s tr = (o, tr')) (e : Ev)
    (he : e ∈ tr') : e ∈ tr ∨ (e = Ev.pollTx ∧ s.txWakeup = true) :=
  txReserveLoopR_mem fuel s tr e (by rw [h]; exact he)

theorem fqReserveLoop_mem_eq (fuel : Nat) (s : PState) (tr tr' : List Ev)
    (o : Option PState) (h : fqReserveLoop fuel s tr = (o, tr')) (e : Ev)
    (he : e ∈ tr') : e ∈ tr ∨ (e = Ev.pollRx ∧ s.fqWakeup = true) :=
  fqReserveLoop_mem fuel s tr e (by rw [h]; exact he)

theorem refillAllocLoop_mem_eq (fuel : Nat) (s : PState) (tr tr' : List Ev)
    (o : Option (Nat × PState)) (h : refillAllocLoop fuel s tr = (o, tr'))
    (e : Ev) (he : e ∈ tr') : e ∈ tr ∨ (e = Ev.pollRx ∧ s.fqWakeup = true) :=
  refillAllocLoop_mem fuel s tr e (by rw [h]; exact he)

theorem refillAllocLoop_eq_some (fuel : Nat) (s s' : PState) (fresh : Nat)
    (tr tr' : List Ev) (h : refillAllocLoop fuel s tr = (some (fresh, s'), tr')) :
    s'.txSubmitted = s.txSubmitted ∧ s'.fqSubmitted = s.fqSubmitted ∧
    s'.fqFree = s.fqFree ∧ s'.txFree = s.txFree ∧
    s'.umem = s.umem ∧ s'.nPktsRx = s.nPktsRx ∧ s'.nPktsTx = s.nPktsTx ∧
    s'.fqWakeup = s.fqWakeup ∧ s'.txWakeup = s.txWakeup ∧
    s'.rxq = s.rxq := by
  have hp := refillAllocLoop_preserve fuel s tr
  rw [h] at hp
  exact hp

theorem fqReserveLoop_eq_some (fuel : Nat) (s s' : PState) (tr tr' : List Ev)
    (h : fqReserveLoop fuel s tr = (some s', tr')) : s' = s := by
  rcases fqReserveLoop_state fuel s tr with h1 | h1 <;> rw [h] at h1
  · exact absurd h1 (by simp)
  · exact Option.some_inj.mp h1

/-- Projection fact: the completion drain does not touch the TX wakeup
flag. -/
theorem pump_drain_cq_txWakeup (s : PState) :
    (pump_drain_cq s).txWakeup = s.txWakeup := rfl

/-- Every syscall event of one port_pump_once invocation is guarded by the
matching needs-wakeup flag. -/
theorem port_pump_once_trace_mem (fuel : Nat) (s : PState) (e : Ev)
    (he : e ∈ (port_pump_once fuel s).2) :
    (e = Ev.pollRx ∧ s.fqWakeup = true) ∨
    (e = Ev.sendtoTx ∧ s.txWakeup = true) := by
  rcases hrxq : (pump_drain_cq s).rxq with _ | ⟨⟨addr, len⟩, rest⟩
  · rw [port_pump_once_empty fuel s hrxq] at he
    by_cases hw : s.fqWakeup
    · simp only [hw, if_true, List.mem_singleton] at he
      exact Or.inl ⟨he, hw⟩
    · simp [hw] at he
  · simp only [port_pump_once, hrxq] at he
    split at he
    next tr heq =>
      replace he : e ∈ tr := he
      rcases txReserveLoop_mem_eq _ _ _ _ _ heq e he with h0 | hky
      · exact absurd h0 (List.not_mem_nil e)
      · exact Or.inr ⟨hky.1, hky.2⟩
    next s3 tr heq =>
      have hs3 := txReserveLoop_eq_some _ _ _ _ _ heq
      subst hs3
      split at he
      next tr3 heq2 =>
        replace he : e ∈ tr3 := he
        rcases refillAllocLoop_mem_eq _ _ _ _ _ heq2 e he with h0 | hky
        · rcases List.mem_append.mp h0 with h1 | h2
          · rcases txReserveLoop_mem_eq _ _ _ _ _ heq e h1 with h3 | hky2
            · exact absurd h3 (List.not_mem_nil e)
            · exact Or.inr ⟨hky2.1, hky2.2⟩
          · cases hw : s.txWakeup
            · simp [pump_drain_cq_txWakeup, hw] at h2
            · simp only [pump_drain_cq_txWakeup, hw, if_true,
                List.mem_singleton] at h2
              exact Or.inr ⟨h2, rfl⟩
        · exact Or.inl ⟨hky.1, hky.2⟩
      next fresh s6 tr3 heq2 =>
        obtain ⟨-, -, -, -, -, -, -, hfw, -, -⟩ :=
          refillAllocLoop_eq_some _ _ _ _ _ _ heq2
        split at he
        next tr4 heq3 =>
          replace he : e ∈ tr4 := he
          rcases fqReserveLoop_mem_eq _ _ _ _ _ heq3 e he with h0 | hky
          · rcases refillAllocLoop_mem_eq _ _ _ _ _ heq2 e h0 with h1 | hky2
            · rcases List.mem_append.mp h1 with h2 | h3
              · rcases txReserveLoop_mem_eq _ _ _ _ _ heq e h2 with h4 | hky3
                · exact absurd h4 (List.not_mem_nil e)
                · exact Or.inr ⟨hky3.1, hky3.2⟩
              · cases hw : s.txWakeup
                · simp [pump_drain_cq_txWakeup, hw] at h3
                · simp only [pump_drain_cq_txWakeup, hw, if_true,
                    List.mem_singleton] at h3
                  exact Or.inr ⟨h3, rfl⟩
            · exact Or.inl ⟨hky2.1, hky2.2⟩
          · exact Or.inl ⟨hky.1, hfw ▸ hky.2⟩
        next s7 tr4 heq3 =>
          replace he : e ∈ tr4 := he
          rcases fqReserveLoop_mem_eq _ _ _ _ _ heq3 e he with h0 | hky
          · rcases refillAllocLoop_mem_eq _ _ _ _ _ heq2 e h0 with h1 | hky2
            · rcases List.mem_append.mp h1 with h2 | h3
              · rcases txReserveLoop_mem_eq _ _ _ _ _ heq e h2 with h4 | hky3
                · exact absurd h4 (List.not_mem_nil e)
                · exact Or.inr ⟨hky3.1, hky3.2⟩
              · cases hw : s.txWakeup
                · simp [pump_drain_cq_txWakeup, hw] at h3
                · simp only [pump_drain_cq_txWakeup, hw, if_true,
                    List.mem_singleton] at h3
                  exact Or.inr ⟨h3, rfl⟩
            · exact Or.inl ⟨hky2.1, hky2.2⟩
          · exact Or.inl ⟨hky.1, hfw ▸ hky.2⟩


/-- Projection fact: the refactored completion drain does not touch the TX
wakeup flag. -/
theorem process_cq_txWakeup (s : PState) :
    (umem_mgr_process_cq s).txWakeup = s.txWakeup := rfl

/-- Every syscall event of one forward_one_packet invocation is guarded by
the matching needs-wakeup flag. -/
theorem forward_one_packet_trace_mem (fuel : Nat) (s : PState) (e : Ev)
    (he : e ∈ (forward_one_packet fuel s).2) :
    (e = Ev.pollRx ∧ s.fqWakeup = true) ∨
    (e = Ev.pollTx ∧ s.txWakeup = true) := by
  rcases hrxq : (umem_mgr_process_cq s).rxq with _ | ⟨⟨addr, len⟩, rest⟩
  · rw [forward_one_packet_empty fuel s hrxq] at he
    by_cases hw : s.fqWakeup
    · simp only [hw, if_true, List.mem_singleton] at he
      exact Or.inl ⟨he, hw⟩
    · simp [hw] at he
  · simp only [forward_one_packet, hrxq] at he
    split at he
    next tr heq =>
      replace he : e ∈ tr := he
      rcases txReserveLoopR_mem_eq _ _ _ _ _ heq e he with h0 | hky
      · exact absurd h0 (List.not_mem_nil e)
      · exact Or.inr ⟨hky.1, hky.2⟩
    next s1 tr heq =>
      have hs1 := txReserveLoopR_eq_some _ _ _ _ _ heq
      subst hs1
      replace he : e ∈ tr ++
          (if (umem_mgr_process_cq s).txWakeup = true then [Ev.pollTx] else []) := he
      rcases List.mem_append.mp he with h1 | h2
      · rcases txReserveLoopR_mem_eq _ _ _ _ _ heq e h1 with h3 | hky
        · exact absurd h3 (List.not_mem_nil e)
        · exact Or.inr ⟨hky.1, hky.2⟩
      · cases hw : s.txWakeup
        · simp [process_cq_txWakeup, hw] at h2
        · simp only [process_cq_txWakeup, hw, if_true, List.mem_singleton] at h2
          exact Or.inr ⟨h2, rfl⟩

/-- Guard a syscall event must satisfy: a poll on RX is advertised by the
Fill ring's needs-wakeup bit, a TX kick (sendto or POLLOUT poll) by the TX
ring's needs-wakeup bit. -/
def evGuard (s : PState) : Ev → Bool
  | Ev.pollRx => s.fqWakeup
  | Ev.pollTx => s.txWakeup
  | Ev.sendtoTx => s.txWakeup

/-- C9: in every pump invocation of either variant, every wakeup syscall
(sendto kick or poll) in the syscall trace is issued only when the
corresponding ring's needs-wakeup bit is set; no kick is unconditional. -/
theorem wakeup_syscall_discipline (fuel : Nat) (s : PState) :
    (port_pump_once fuel s).2.all (evGuard s) = true ∧
    (forward_one_packet fuel s).2.all (evGuard s) = true := by
  constructor <;> rw [List.all_eq_true] <;> intro e he
  · rcases port_pump_once_trace_mem fuel s e he with ⟨h1, h2⟩ | ⟨h1, h2⟩ <;>
      subst h1 <;> simpa [evGuard] using h2
  · rcases forward_one_packet_trace_mem fuel s e he with ⟨h1, h2⟩ | ⟨h1, h2⟩ <;>
      subst h1 <;> simpa [evGuard] using h2

/- Byte-level reading of the MAC swap: the first two 6-byte fields trade
places and everything from byte 12 on is untouched. -/

theorem swap_mac_len6 (pkt : List Nat) (h : 12 ≤ pkt.length) :
    ((pkt.drop 6).take 6).length = 6 ∧ (pkt.take 6).length = 6 := by
  constructor <;> simp <;> omega

theorem swap_mac_bytes (pkt : List Nat) (h : 12 ≤ pkt.length) :
    (swap_mac_addresses pkt).take 6 = (pkt.drop 6).take 6 ∧
    ((swap_mac_addresses pkt).drop 6).take 6 = pkt.take 6 ∧
    (swap_mac_addresses pkt).drop 12 = pkt.drop 12 := by
  obtain ⟨hA, hB⟩ := swap_mac_len6 pkt h
  refine ⟨?_, ?_, ?_⟩
  · rw [swap_mac_addresses, List.append_assoc, List.take_left' hA]
  · rw [swap_mac_addresses, List.append_assoc, List.drop_left' hA,
        List.take_left' hB]
  · rw [swap_mac_addresses, List.append_assoc, List.drop_append_eq_append_drop]
    rw [List.drop_of_length_le (by omega), hA]
    rw [List.drop_append_eq_append_drop, List.drop_of_length_le (by omega), hB]
    simp

/- Projection facts used to discharge the happy-path side conditions. -/

theorem pump_drain_cq_txFree (s : PState) :
    (pump_drain_cq s).txFree = s.txFree := rfl

theorem pump_drain_cq_fqFree (s : PState) :
    (pump_drain_cq s).fqFree = s.fqFree := rfl

/-- C4 (amended): on the happy path of port_pump_once (an RX descriptor is
available, a TX slot, a free frame and a Fill slot are available), the pump
forwards the same (addr, len) descriptor to TX, and the packet bytes at the
frame's data address umem_base + data_offset(addr) are the RX-observed bytes
with the two 6-byte MAC fields exchanged in place: bytes 0-5 and 6-11 trade
places and all bytes from 12 on are unchanged; no other frame's bytes are
touched.  (The refactored forward_one_packet does not enable the MAC-swap
transform; see the counterexample.) -/
theorem pump_swaps_macs (fuel : Nat) (s : PState) (addr len : Nat)
    (rest : List (Nat × Nat)) (hrx : s.rxq = (addr, len) :: rest)
    (htx : 1 ≤ s.txFree) (hfree : 1 ≤ s.u.freeTop) (hfq : 1 ≤ s.fqFree)
    (hpkt : 12 ≤ (s.umem (add_offset_to_addr addr)).length) :
    ((port_pump_once (fuel + 1) s).1.map (fun r => r.1)) = some 1 ∧
    ((port_pump_once (fuel + 1) s).1.map (fun r => r.2.txSubmitted))
      = some (s.txSubmitted ++ [(addr, len)]) ∧
    ((port_pump_once (fuel + 1) s).1.map
        (fun r => r.2.umem (add_offset_to_addr addr)))
      = some (swap_mac_addresses (s.umem (add_offset_to_addr addr))) ∧
    (∀ a, a ≠ add_offset_to_addr addr →
      ((port_pump_once (fuel + 1) s).1.map (fun r => r.2.umem a))
        = some (s.umem a)) ∧
    (swap_mac_addresses (s.umem (add_offset_to_addr addr))).take 6
      = ((s.umem (add_offset_to_addr addr)).drop 6).take 6 ∧
    ((swap_mac_addresses (s.umem (add_offset_to_addr addr))).drop 6).take 6
      = (s.umem (add_offset_to_addr addr)).take 6 ∧
    (swap_mac_addresses (s.umem (add_offset_to_addr addr))).drop 12
      = (s.umem (add_offset_to_addr addr)).drop 12 := by
  have hrxq' : (pump_drain_cq s).rxq = (addr, len) :: rest := hrx
  have hfree2 : ∀ k : Nat, 1 ≤ s.u.freeTop + k :=
    fun k => le_trans hfree (Nat.le_add_right _ _)
  have key : ∃ st tr, port_pump_once (fuel + 1) s = (some (1, st), tr) ∧
      st.txSubmitted = s.txSubmitted ++ [(addr, len)] ∧
      st.umem = (fun a => if a = add_offset_to_addr addr
          then swap_mac_addresses (s.umem (add_offset_to_addr addr))
          else s.umem a) := by
    simp only [port_pump_once, hrxq', txReserveLoop_succ, refillAllocLoop_succ,
      fqReserveLoop_succ, pump_drain_cq_txFree, pump_drain_cq_fqFree,
      pump_drain_cq_u, drainOrig_freeTop, htx, hfq, hfree2]
    exact ⟨_, _, rfl, rfl, rfl⟩
  obtain ⟨st, tr, hev, hsub, hum⟩ := key
  obtain ⟨hs1, hs2, hs3⟩ := swap_mac_bytes (s.umem (add_offset_to_addr addr)) hpkt
  refine ⟨?_, ?_, ?_, ?_, hs1, hs2, hs3⟩
  · rw [hev]
    rfl
  · rw [hev]
    simp [hsub]
  · rw [hev]
    simp [hum]
  · intro a ha
    rw [hev]
    simp [hum, ha]

/-- Concrete pump state for the refactored forwarder: one RX descriptor for
frame 0 whose packet has distinct source and destination MACs. -/
def wit4 : PState :=
  { u := ⟨[0], 1, 1, 2048⟩
    umem := fun _ => [170, 170, 170, 170, 170, 170,
                      187, 187, 187, 187, 187, 187, 8, 0]
    compSize := 64
    fillSize := 2
    cq := []
    rxq := [(0, 14)]
    fqFree := 0
    fqSubmitted := []
    txFree := 1
    txSubmitted := []
    fqWakeup := false
    txWakeup := false
    nPktsRx := 0
    nPktsTx := 0 }

/-- C4 counterexample: the refactored forward_one_packet forwards the frame
(result 1, descriptor (0, 14) submitted to TX) but leaves the packet bytes
unchanged, and for a packet with distinct MACs the unchanged bytes differ
from the MAC-swapped bytes the claim requires at TX submission. -/
theorem forward_one_packet_no_mac_swap :
    ((forward_one_packet 1 wit4).1.map (fun r => r.1)) = some 1 ∧
    ((forward_one_packet 1 wit4).1.map (fun r => r.2.txSubmitted))
      = some [(0, 14)] ∧
    ((forward_one_packet 1 wit4).1.map
        (fun r => r.2.umem (add_offset_to_addr 0))) = some (wit4.umem 0) ∧
    swap_mac_addresses (wit4.umem 0) ≠ wit4.umem 0 := by
  refine ⟨rfl, rfl, rfl, by decide⟩

/-- Concrete pump state for the original pump's happy path: an RX
descriptor, a TX slot, a free frame and a Fill slot are all available. -/
def wit4s : PState :=
  { u := ⟨[0, 2048], 2, 2, 2048⟩
    umem := fun _ => [170, 170, 170, 170, 170, 170,
                      187, 187, 187, 187, 187, 187, 8, 0]
    compSize := 64
    fillSize := 2
    cq := []
    rxq := [(0, 14)]
    fqFree := 1
    fqSubmitted := []
    txFree := 1
    txSubmitted := []
    fqWakeup := false
    txWakeup := false
    nPktsRx := 0
    nPktsTx := 0 }

/-- Witness for pump_swaps_macs at a concrete pump state. -/
theorem pump_swaps_macs_witness :
    ((port_pump_once (0 + 1) wit4s).1.map (fun r => r.1)) = some 1 ∧
    ((port_pump_once (0 + 1) wit4s).1.map (fun r => r.2.txSubmitted))
      = some (wit4s.txSubmitted ++ [(0, 14)]) ∧
    ((port_pump_once (0 + 1) wit4s).1.map
        (fun r => r.2.umem (add_offset_to_addr 0)))
      = some (swap_mac_addresses (wit4s.umem (add_offset_to_addr 0))) ∧
    (∀ a, a ≠ add_offset_to_addr 0 →
      ((port_pump_once (0 + 1) wit4s).1.map (fun r => r.2.umem a))
        = some (wit4s.umem a)) ∧
    (swap_mac_addresses (wit4s.umem (add_offset_to_addr 0))).take 6
      = ((wit4s.umem (add_offset_to_addr 0)).drop 6).take 6 ∧
    ((swap_mac_addresses (wit4s.umem (add_offset_to_addr 0))).drop 6).take 6
      = (wit4s.umem (add_offset_to_addr 0)).take 6 ∧
    (swap_mac_addresses (wit4s.umem (add_offset_to_addr 0))).drop 12
      = (wit4s.umem (add_offset_to_addr 0)).drop 12 :=
  pump_swaps_macs 0 wit4s 0 14 [] rfl (by decide) (by decide) (by decide)
    (by decide)

/- Finer structure of the alloc pop loop and the checked free loop, used for
the no-frame-lost property of the Fill-ring refill. -/

theorem allocLoop_out_rev (u : Umem) (k : Nat) (hk : k ≤ u.freeTop)
    (hlen : u.freeTop ≤ u.freeAddrs.length) :
    (allocLoop u k).2
      = ((u.freeAddrs.take u.freeTop).drop (u.freeTop - k)).reverse := by
  induction k generalizing u with
  | zero =>
    have : (u.freeAddrs.take u.freeTop).length ≤ u.freeTop - 0 := by
      simp
    simp [allocLoop, List.drop_of_length_le this]
  | succ k ih =>
    have h1 : 1 ≤ u.freeTop := by omega
    have hidx : u.freeTop - 1 < u.freeAddrs.length := by omega
    have ihu := ih { u with freeTop := u.freeTop - 1 } (by simp; omega)
      (by simp; omega)
    simp only [allocLoop, ihu]
    have hsplit : u.freeAddrs.take u.freeTop
        = u.freeAddrs.take (u.freeTop - 1)
            ++ [u.freeAddrs.getD (u.freeTop - 1) 0] := by
      conv_lhs => rw [show u.freeTop = (u.freeTop - 1) + 1 from by omega]
      rw [List.take_succ]
      simp [List.getElem?_eq_getElem hidx, List.getD_eq_getElem?_getD]
    rw [hsplit, List.drop_append_eq_append_drop]
    have hlt : u.freeTop - (k + 1) ≤ (u.freeAddrs.take (u.freeTop - 1)).length := by
      simp
      omega
    have hz : u.freeTop - (k + 1) - (u.freeAddrs.take (u.freeTop - 1)).length
        = 0 := by
      simp
      omega
    rw [hz]
    have he : u.freeTop - (k + 1) = u.freeTop - 1 - k := by omega
    rw [he]
    simp [List.getD_eq_getElem?_getD, List.getElem?_eq_getElem hidx]

theorem take_succ_set {α : Type} (l : List α) (k : Nat) (x : α)
    (h : k < l.length) : (l.set k x).take (k + 1) = l.take k ++ [x] := by
  induction l generalizing k with
  | nil => simp at h
  | cons y ys ih =>
    cases k with
    | zero => simp
    | succ k =>
      show List.take (k + 2) (y :: ys.set k x) = List.take (k + 1) (y :: ys) ++ [x]
      simp [ih k (by simpa using h)]

/-- Pushing a list that fits below capacity appends it to the live
entries. -/
theorem freeLoop_fits (u : Umem) (l : List Nat)
    (hlen : u.freeAddrs.length = u.nFrames)
    (hcap : u.freeTop + l.length ≤ u.nFrames) :
    (freeLoop u l).freeTop = u.freeTop + l.length ∧
    (freeLoop u l).freeAddrs.take (u.freeTop + l.length)
      = u.freeAddrs.take u.freeTop ++ l := by
  induction l generalizing u with
  | nil => simp [freeLoop]
  | cons a rest ih =>
    have hc : u.freeTop < u.nFrames := by
      simp only [List.length_cons] at hcap
      omega
    simp only [freeLoop, hc, if_true]
    have hlen' : (u.freeAddrs.set u.freeTop a).length = u.nFrames := by
      simp [hlen]
    have hcap' : u.freeTop + 1 + rest.length ≤ u.nFrames := by
      simp only [List.length_cons] at hcap
      omega
    obtain ⟨h1, h2⟩ := ih { u with freeAddrs := u.freeAddrs.set u.freeTop a
                                   freeTop := u.freeTop + 1 }
      hlen' hcap'
    constructor
    · rw [h1]
      simp
      omega
    · have e : u.freeTop + (a :: rest).length = (u.freeTop + 1) + rest.length := by
        simp
        omega
      rw [e, h2]
      rw [take_succ_set u.freeAddrs u.freeTop a (by omega)]
      simp

/-- C3 (amended): in the refactored umem_mgr_fill_fq, whenever the Fill
ring cannot reserve the full count for the frames already popped, every
frame is pushed back onto the freelist (free_top is restored and the live
entries are a permutation of the original ones: no frame is lost), the ring
is untouched, and the function reports the actual number of frames
submitted, namely 0.  (port_init in xdp_fwd2.c instead abandons the popped
frames on this path; see the counterexample.) -/
theorem fill_fq_shortfall_returns_frames (s : PState) (want : Nat)
    (hlen : s.u.freeAddrs.length = s.u.nFrames)
    (hinv : s.u.freeTop ≤ s.u.nFrames) (hw : 0 < want)
    (hshort : s.fqFree < min want s.u.freeTop) :
    (umem_mgr_fill_fq s want).2 = 0 ∧
    (umem_mgr_fill_fq s want).1.fqSubmitted = s.fqSubmitted ∧
    (umem_mgr_fill_fq s want).1.fqFree = s.fqFree ∧
    (umem_mgr_fill_fq s want).1.u.freeTop = s.u.freeTop ∧
    ((umem_mgr_fill_fq s want).1.u.freeAddrs.take s.u.freeTop).Perm
      (s.u.freeAddrs.take s.u.freeTop) := by
  have hga := umem_alloc_r_eq s.u want
  have hlen1 : (umem_alloc s.u want).2.length = min want s.u.freeTop :=
    (umem_alloc_props s.u want).1
  have hw0 : ¬ (want = 0) := by omega
  have hg1 : ¬ ((umem_alloc s.u want).2.length = 0) := by
    rw [hlen1]
    omega
  have hr : xsk_reserve s.fqFree (umem_alloc s.u want).2.length
      ≠ (umem_alloc s.u want).2.length := by
    rw [hlen1]
    simp only [xsk_reserve]
    split <;> omega
  have heval : umem_mgr_fill_fq s want
      = ({ s with u := umem_free (umem_alloc s.u want).1 (umem_alloc s.u want).2 }, 0) := by
    simp only [umem_mgr_fill_fq, hw0, if_false, hga, hg1, hr, if_true]
    rw [if_pos hr]
  have htop1 : (umem_alloc s.u want).1.freeTop
      = s.u.freeTop - min want s.u.freeTop := (umem_alloc_props s.u want).2.1
  have haddr1 : (umem_alloc s.u want).1.freeAddrs = s.u.freeAddrs :=
    (umem_alloc_props s.u want).2.2.1
  have hn1 : (umem_alloc s.u want).1.nFrames = s.u.nFrames :=
    (umem_alloc_props s.u want).2.2.2.1
  have hfits := freeLoop_fits (umem_alloc s.u want).1 (umem_alloc s.u want).2
    (by rw [haddr1, hn1]; exact hlen) (by rw [htop1, hn1, hlen1]; omega)
  have hgot : (if s.u.freeTop ≥ want then want else s.u.freeTop)
      = min want s.u.freeTop := by split <;> omega
  have hout : (umem_alloc s.u want).2
      = ((s.u.freeAddrs.take s.u.freeTop).drop
          (s.u.freeTop - min want s.u.freeTop)).reverse := by
    show (allocLoop s.u (if s.u.freeTop ≥ want then want else s.u.freeTop)).2 = _
    rw [hgot]
    exact allocLoop_out_rev s.u (min want s.u.freeTop) (by omega) (by omega)
  have htot : s.u.freeTop - min want s.u.freeTop + (umem_alloc s.u want).2.length
      = s.u.freeTop := by
    rw [hlen1]
    omega
  refine ⟨by rw [heval], by rw [heval], by rw [heval], ?_, ?_⟩
  · rw [heval]
    show (umem_free (umem_alloc s.u want).1 (umem_alloc s.u want).2).freeTop
        = s.u.freeTop
    rw [umem_free] at *
    rw [hfits.1, htop1, htot]
  · rw [heval]
    show ((umem_free (umem_alloc s.u want).1
        (umem_alloc s.u want).2).freeAddrs.take s.u.freeTop).Perm
      (s.u.freeAddrs.take s.u.freeTop)
    have h2 := hfits.2
    rw [htop1, htot, haddr1] at h2
    rw [umem_free, h2, hout]
    have e1 : s.u.freeAddrs.take (s.u.freeTop - min want s.u.freeTop)
        = (s.u.freeAddrs.take s.u.freeTop).take
            (s.u.freeTop - min want s.u.freeTop) := by
      rw [List.take_take]
      have : min (s.u.freeTop - min want s.u.freeTop) s.u.freeTop
          = s.u.freeTop - min want s.u.freeTop := by omega
      rw [this]
    rw [e1]
    refine (List.Perm.append_left _ (List.reverse_perm _)).trans ?_
    rw [List.take_append_drop]

/-- Concrete pump state for the initial-fill shortfall: two frames on the
freelist, fill_size 2, but only one free Fill slot. -/
def wit3 : PState :=
  { u := ⟨[0, 2048], 2, 2, 2048⟩
    umem := fun _ => []
    compSize := 64
    fillSize := 2
    cq := []
    rxq := []
    fqFree := 1
    fqSubmitted := []
    txFree := 0
    txSubmitted := []
    fqWakeup := false
    txWakeup := false
    nPktsRx := 0
    nPktsTx := 0 }

/-- C3 counterexample: in port_init of xdp_fwd2.c, when the Fill ring cannot
reserve the full popped count, the function fails and the popped frames are
NOT pushed back: the freelist drops from 2 frames to 0 while nothing was
submitted to the ring, so the frames are lost, contrary to the claim. -/
theorem port_init_shortfall_loses_frames :
    (port_init_fill wit3).1 = false ∧
    (port_init_fill wit3).2.u.freeTop = 0 ∧
    wit3.u.freeTop = 2 ∧
    (port_init_fill wit3).2.fqSubmitted = [] := by
  exact ⟨rfl, rfl, rfl, rfl⟩

/-- Witness for fill_fq_shortfall_returns_frames at the same concrete
shortfall state. -/
theorem fill_fq_shortfall_returns_frames_witness :
    (umem_mgr_fill_fq wit3 2).2 = 0 ∧
    (umem_mgr_fill_fq wit3 2).1.fqSubmitted = wit3.fqSubmitted ∧
    (umem_mgr_fill_fq wit3 2).1.fqFree = wit3.fqFree ∧
    (umem_mgr_fill_fq wit3 2).1.u.freeTop = wit3.u.freeTop ∧
    ((umem_mgr_fill_fq wit3 2).1.u.freeAddrs.take wit3.u.freeTop).Perm
      (wit3.u.freeAddrs.take wit3.u.freeTop) :=
  fill_fq_shortfall_returns_frames wit3 2 (by decide) (by decide) (by decide)
    (by decide)

end XdpFwd
